import Mathlib

/-!
Verification of the bls-elgamal repository: ElGamal encryption over a
prime-order group (two source variants) and a Groth-Sahai style NIZK for
multi-scalar-multiplication equations.

The group-arithmetic backend (arkworks) is abstracted exactly as the code
consumes it: `P` is the projective group of points, an additive commutative
group that is a module over the scalar field `F` (point `*` scalar in Rust
is `r • p` here); the affine representation `Q` used at some API boundaries
is related to `P` by the projective/affine conversion, a linear bijection
`φ : P ≃ₗ[F] Q` (`into_affine` is `φ`, `into_group` is `φ.symm`).
-/

namespace BlsElgamal

/-- src/ciphertext.rs: `Ciphertext<P>(pub P, pub P)` — a pair of points.
Field `a` is component `.0`, field `b` is component `.1`. -/
structure Ciphertext (P : Type) where
  a : P
  b : P
  deriving DecidableEq

/-- src/ciphertext.rs `impl Add for Ciphertext`: componentwise addition
`Ciphertext(self.0 + rhs.0, self.1 + rhs.1)` (the by-reference impls
compute the same value). -/
instance {P : Type} [Add P] : Add (Ciphertext P) :=
  ⟨fun u v => ⟨u.a + v.a, u.b + v.b⟩⟩

theorem Ciphertext.add_def {P : Type} [Add P] (u v : Ciphertext P) :
    u + v = ⟨u.a + v.a, u.b + v.b⟩ := rfl

namespace Algo

/-- src/algorithm.rs: `EncryptKey<S, P> { generator: P, y: P }`
(the `PhantomData` marker field carries no data and is omitted). -/
structure EncryptKey (F P : Type) where
  generator : P
  y : P

/-- src/algorithm.rs `EncryptKey::encrypt`: `(generator * r, y * r + m)`. -/
def EncryptKey.encrypt {F P : Type} [CommRing F] [AddCommGroup P] [Module F P]
    (k : EncryptKey F P) (m : P) (r : F) : Ciphertext P :=
  ⟨r • k.generator, r • k.y + m⟩

/-- src/algorithm.rs: `DecryptKey<S, P> { generator, secret, encrypt_key }`. -/
structure DecryptKey (F P : Type) where
  generator : P
  secret : F
  encrypt_key : EncryptKey F P

/-- src/algorithm.rs `DecryptKey::new(generator, x)`: computes
`y = generator * x` and stores generator, secret and the encrypt key. -/
def DecryptKey.new {F P : Type} [CommRing F] [AddCommGroup P] [Module F P]
    (generator : P) (x : F) : DecryptKey F P :=
  ⟨generator, x, ⟨generator, x • generator⟩⟩

/-- src/algorithm.rs `DecryptKey::decrypt(ct)`: `ct.1 - ct.0 * secret`. -/
def DecryptKey.decrypt {F P : Type} [CommRing F] [AddCommGroup P] [Module F P]
    (k : DecryptKey F P) (ct : Ciphertext P) : P :=
  ct.b - k.secret • ct.a

end Algo

namespace Curve

/-- src/encrypt.rs: `EncryptKey<G> { generator: G::Affine, y: G::Affine }`. -/
structure EncryptKey (Q : Type) where
  generator : Q
  y : Q

/-- src/encrypt.rs `EncryptKey::encrypt(m, r)`:
`a = generator * r` (affine times scalar, computed in the projective group),
`b = y * r + m` (mixed addition, in the projective group); the ciphertext
holds the projective points `(a.into(), b.into())`. -/
def EncryptKey.encrypt {F P Q : Type} [CommRing F] [AddCommGroup P] [Module F P]
    [AddCommGroup Q] [Module F Q] (φ : P ≃ₗ[F] Q)
    (k : EncryptKey Q) (m : Q) (r : F) : Ciphertext P :=
  ⟨r • φ.symm k.generator, r • φ.symm k.y + φ.symm m⟩

/-- src/encrypt.rs `EncryptKey::rerandomize(ct, r)`:
`(ct.0 + generator * r, ct.1 + y * r)`, using only the public key. -/
def EncryptKey.rerandomize {F P Q : Type} [CommRing F] [AddCommGroup P] [Module F P]
    [AddCommGroup Q] [Module F Q] (φ : P ≃ₗ[F] Q)
    (k : EncryptKey Q) (ct : Ciphertext P) (r : F) : Ciphertext P :=
  ⟨ct.a + r • φ.symm k.generator, ct.b + r • φ.symm k.y⟩

/-- src/decrypt.rs: `DecryptKey<G> { secret, encrypt_key }`. -/
structure DecryptKey (F Q : Type) where
  secret : F
  encrypt_key : EncryptKey Q

/-- src/decrypt.rs `DecryptKey::new(generator, x)`: converts the affine
generator into the group (`φ.symm`), computes `y = generator * x` there, and
stores the key pair (the stored public-key components are affine, as in
src/encrypt.rs, so `y` is converted back at the boundary). -/
def DecryptKey.new {F P Q : Type} [CommRing F] [AddCommGroup P] [Module F P]
    [AddCommGroup Q] [Module F Q] (φ : P ≃ₗ[F] Q)
    (generator : Q) (x : F) : DecryptKey F Q :=
  ⟨x, ⟨generator, φ (x • φ.symm generator)⟩⟩

/-- src/decrypt.rs `DecryptKey::decrypt(ct)`:
`(ct.1 + ct.0 * secret.neg()).into()` — computed projectively, converted to
affine at the boundary. -/
def DecryptKey.decrypt {F P Q : Type} [CommRing F] [AddCommGroup P] [Module F P]
    [AddCommGroup Q] [Module F Q] (φ : P ≃ₗ[F] Q)
    (k : DecryptKey F Q) (ct : Ciphertext P) : Q :=
  φ (ct.b + (-k.secret) • ct.a)

end Curve

namespace GS

open Matrix

/-!
src/nizk.rs: Groth-Sahai proof for the equation `yA + bX = target` on G1.
`ndarray::Array2` matrices become Mathlib matrices with their dimensions in
the type; `reversed_axes` is transpose; elementwise `+`/`-` are the matrix
instances.  The pairing `E::pairing` of the arkworks `Pairing` trait is a
bilinear map, modelled as `e : G1 →ₗ[F] G2 →ₗ[F] GT` over the scalar field.
-/

/-- src/nizk.rs `Crs<E> { p1, p2, u, v }` with `u`, `v` of dimension 2 x 2. -/
structure Crs (F G1 G2 : Type) where
  p1 : G1
  p2 : G2
  u : Matrix (Fin 2) (Fin 2) G1
  v : Matrix (Fin 2) (Fin 2) G2

variable {F G1 G2 GT : Type}

/-- src/nizk.rs `Crs::rand` after the rng draws: given the sampled
generators `p1`, `p2` and trapdoor scalars `a1 t1 a2 t2`, builds
`u = [[p1, p1 t1], [p1 a1, p1 a1 t1]]` and `v` likewise. -/
def Crs.build [CommRing F] [AddCommGroup G1] [Module F G1]
    [AddCommGroup G2] [Module F G2]
    (p1 : G1) (p2 : G2) (a1 t1 a2 t2 : F) : Crs F G1 G2 :=
  ⟨p1, p2,
    Matrix.of ![![p1, t1 • p1], ![a1 • p1, (a1 * t1) • p1]],
    Matrix.of ![![p2, t2 • p2], ![a2 • p2, (a2 * t2) • p2]]⟩

/-- src/nizk.rs `Crs::v1`: the first column of `v` as a 1 x 2 row,
`[[v[(0,0)], v[(1,0)]]]`. -/
def Crs.v1 (crs : Crs F G1 G2) : Matrix (Fin 1) (Fin 2) G2 :=
  Matrix.of fun _ j => crs.v j 0

/-- src/nizk.rs `scalar_matmul_g1` / `scalar_matmul_g2` (the two
functions are textually identical up to the group): entry `(i, j)` is
`sum_k b[k, j] * a[i, k]`, a scalar-matrix times group-matrix product. -/
def scalarMatmul {m k n : ℕ} [CommRing F] {G : Type} [AddCommGroup G] [Module F G]
    (a : Matrix (Fin m) (Fin k) F) (b : Matrix (Fin k) (Fin n) G) :
    Matrix (Fin m) (Fin n) G :=
  Matrix.of fun i j => ∑ l, a i l • b l j

/-- src/nizk.rs `matmul`: pairing-product matrix multiplication, entry
`(i, j)` is `sum_k e(a[i, k], b[k, j])`. -/
def pairMatmul [CommRing F] [AddCommGroup G1] [Module F G1] [AddCommGroup G2]
    [Module F G2] [AddCommGroup GT] [Module F GT]
    (e : G1 →ₗ[F] G2 →ₗ[F] GT) {m k n : ℕ}
    (a : Matrix (Fin m) (Fin k) G1) (b : Matrix (Fin k) (Fin n) G2) :
    Matrix (Fin m) (Fin n) GT :=
  Matrix.of fun i j => ∑ l, e (a i l) (b l j)

/-- src/nizk.rs `l1`: maps an m x 1 vector of group elements to the m x 2
matrix `[0 | a]` (zero first column, the vector as second column). -/
def l1 {m : ℕ} {G : Type} [AddCommGroup G]
    (a : Matrix (Fin m) (Fin 1) G) : Matrix (Fin m) (Fin 2) G :=
  Matrix.of fun i j => if j = 0 then 0 else a i 0

/-- src/nizk.rs `lz2`: the two-element G2 basis row `[v[(0,1)] | v[(1,1)] + p2]`
used to embed scalars. -/
def lzBasis [AddCommGroup G2] (crs : Crs F G1 G2) : Fin 2 → G2 :=
  ![crs.v 0 1, crs.v 1 1 + crs.p2]

/-- src/nizk.rs `lz2`: scales the basis row by each scalar of the m x 1
vector `z` (the elementwise broadcast product `v * z` of the source),
giving the m x 2 matrix with row i equal to `z[i] • [v[(0,1)] | v[(1,1)] + p2]`. -/
def lz2 [CommRing F] [AddCommGroup G2] [Module F G2] {m : ℕ}
    (crs : Crs F G1 G2) (z : Matrix (Fin m) (Fin 1) F) :
    Matrix (Fin m) (Fin 2) G2 :=
  Matrix.of fun i j => z i 0 • lzBasis crs j

variable [CommRing F] [AddCommGroup G1] [Module F G1] [AddCommGroup G2]
  [Module F G2] [AddCommGroup GT] [Module F GT]

/-- src/nizk.rs `commit_x`: `c = l(x) + R u`. -/
def commitX {m : ℕ} (crs : Crs F G1 G2)
    (r : Matrix (Fin m) (Fin 2) F) (x : Matrix (Fin m) (Fin 1) G1) :
    Matrix (Fin m) (Fin 2) G1 :=
  l1 x + scalarMatmul r crs.u

/-- src/nizk.rs `commit_y`: `d = l(y) + s v1`. -/
def commitY {n : ℕ} (crs : Crs F G1 G2)
    (s : Matrix (Fin n) (Fin 1) F) (y : Matrix (Fin n) (Fin 1) F) :
    Matrix (Fin n) (Fin 2) G2 :=
  lz2 crs y + scalarMatmul s crs.v1

/-- src/nizk.rs `proof`: `pi = R^T l(b) - T^T v1` and
`theta = s^T l(a) + T u`. -/
def proofTerms {m n : ℕ} (crs : Crs F G1 G2)
    (r : Matrix (Fin m) (Fin 2) F) (s : Matrix (Fin n) (Fin 1) F)
    (t : Matrix (Fin 1) (Fin 2) F)
    (a : Matrix (Fin n) (Fin 1) G1) (b : Matrix (Fin m) (Fin 1) F) :
    Matrix (Fin 2) (Fin 2) G2 × Matrix (Fin 1) (Fin 2) G1 :=
  (scalarMatmul rᵀ (lz2 crs b) - scalarMatmul tᵀ crs.v1,
    scalarMatmul sᵀ (l1 a) + scalarMatmul t crs.u)

/-- src/nizk.rs `Proof<E> { c, d, pi, theta }` for a statement with m group
witnesses and n scalar witnesses. -/
structure GSProof (G1 G2 : Type) (m n : ℕ) where
  c : Matrix (Fin m) (Fin 2) G1
  d : Matrix (Fin n) (Fin 2) G2
  pi : Matrix (Fin 2) (Fin 2) G2
  theta : Matrix (Fin 1) (Fin 2) G1

/-- src/nizk.rs `prove`, after the length asserts and reshapes: commits to
the witnesses with the sampled randomness `r`, `s`, `t` and forms the proof
terms. -/
def prove {m n : ℕ} (crs : Crs F G1 G2)
    (a : Matrix (Fin n) (Fin 1) G1) (y : Matrix (Fin n) (Fin 1) F)
    (x : Matrix (Fin m) (Fin 1) G1) (b : Matrix (Fin m) (Fin 1) F)
    (r : Matrix (Fin m) (Fin 2) F) (s : Matrix (Fin n) (Fin 1) F)
    (t : Matrix (Fin 1) (Fin 2) F) : GSProof G1 G2 m n :=
  { c := commitX crs r x
    d := commitY crs s y
    pi := (proofTerms crs r s t a b).1
    theta := (proofTerms crs r s t a b).2 }

/-- src/nizk.rs `f`: maps two 1 x 2 rows to the 2 x 2 matrix of pairings
`[[e(x1, y1), e(x1, y2)], [e(x2, y1), e(x2, y2)]]`. -/
def fPair (e : G1 →ₗ[F] G2 →ₗ[F] GT)
    (x : Matrix (Fin 1) (Fin 2) G1) (y : Matrix (Fin 1) (Fin 2) G2) :
    Matrix (Fin 2) (Fin 2) GT :=
  Matrix.of fun i j => e (x 0 i) (y 0 j)

/-- src/nizk.rs `l_t`: lifts the public target into the 2 x 2 pairing-output
matrix `f([[0, target]], lz2([[1]]))`. -/
def lT (e : G1 →ₗ[F] G2 →ₗ[F] GT) (crs : Crs F G1 G2) (target : G1) :
    Matrix (Fin 2) (Fin 2) GT :=
  fPair e (Matrix.of ![![0, target]]) (lz2 crs (Matrix.of fun _ _ => (1 : F)))

/-- src/nizk.rs `verify`, after the reshapes (with the dimension checks of
`matmul` holding by type): compares
`l(a)^T d + c^T l(b)` with `l_t(target) + u^T pi + F(theta, v1)` entrywise. -/
def verify [DecidableEq GT] (e : G1 →ₗ[F] G2 →ₗ[F] GT) {m n : ℕ}
    (crs : Crs F G1 G2) (a : Matrix (Fin n) (Fin 1) G1)
    (b : Matrix (Fin m) (Fin 1) F) (target : G1) (pf : GSProof G1 G2 m n) :
    Bool :=
  decide (pairMatmul e (l1 a)ᵀ pf.d + pairMatmul e pf.cᵀ (lz2 crs b) =
    lT e crs target + pairMatmul e crs.uᵀ pf.pi + fPair e pf.theta crs.v1)

/-- src/nizk.rs `Proof::randomize` together with `randomize_com_x`,
`randomize_com_y` and `randomize_proof`, after the reshapes: with fresh
randomness `r`, `s`, `t`, `c' = c + R u`, `d' = d + s v1`,
`pi' = pi + R^T l(b) - T^T v1`, `theta' = theta + s^T l(a) + T u`. -/
def randomize {m n : ℕ} (crs : Crs F G1 G2)
    (a : Matrix (Fin n) (Fin 1) G1) (b : Matrix (Fin m) (Fin 1) F)
    (pf : GSProof G1 G2 m n)
    (r : Matrix (Fin m) (Fin 2) F) (s : Matrix (Fin n) (Fin 1) F)
    (t : Matrix (Fin 1) (Fin 2) F) : GSProof G1 G2 m n :=
  { c := pf.c + scalarMatmul r crs.u
    d := pf.d + scalarMatmul s crs.v1
    pi := pf.pi + scalarMatmul rᵀ (lz2 crs b) - scalarMatmul tᵀ crs.v1
    theta := pf.theta + scalarMatmul sᵀ (l1 a) + scalarMatmul t crs.u }

/-- The relation of the statement proved (src/nizk.rs doc comment of
`prove`/`verify`): `sum_j y_j A_j + sum_i b_i x_i = target`. -/
def satisfies {m n : ℕ} (a : Matrix (Fin n) (Fin 1) G1)
    (y : Matrix (Fin n) (Fin 1) F) (x : Matrix (Fin m) (Fin 1) G1)
    (b : Matrix (Fin m) (Fin 1) F) (target : G1) : Prop :=
  (∑ j, y j 0 • a j 0) + (∑ i, b i 0 • x i 0) = target

/-- Models `ndarray::Array2::from_shape_vec((n, 1), l).unwrap()`: succeeds exactly
when the list has length n, and then yields the n x 1 column matrix of its
elements; `none` models the `unwrap` panic on a shape error. -/
def reshapeCol {α : Type} (l : List α) (n : ℕ) : Option (Matrix (Fin n) (Fin 1) α) :=
  if h : l.length = n then some (Matrix.of fun i _ => l.get (Fin.cast h.symm i)) else none

/-- src/nizk.rs `prove` on vectors, as written: `none` models a fatal abort,
either of the two `assert!`s (`m == a.len()`, `n == b.len()` for
`m = x.len()`, `n = y.len()`) or of the `from_shape_vec(..).unwrap()`
reshapes (`a` to shape `(n, 1)`, `b` to shape `(m, 1)`).  The rng draws for
`R (m x 2)`, `S (n x 1)`, `T (1 x 2)` are passed as explicit streams. -/
def proveList (crs : Crs F G1 G2) (a : List G1) (y : List F) (x : List G1)
    (b : List F) (rr ss tt : ℕ → ℕ → F) :
    Option (GSProof G1 G2 x.length y.length) :=
  if x.length = a.length then
    if y.length = b.length then
      (reshapeCol a y.length).bind fun am =>
      (reshapeCol y y.length).bind fun ym =>
      (reshapeCol x x.length).bind fun xm =>
      (reshapeCol b x.length).bind fun bm =>
      some (prove crs am ym xm bm (Matrix.of fun i j => rr i j)
        (Matrix.of fun i j => ss i j) (Matrix.of fun i j => tt i j))
    else none
  else none

/-- src/nizk.rs `verify` on vectors: reshapes `a` to `(a.len(), 1)` and `b`
to `(b.len(), 1)` (always succeeding) and then multiplies against the proof
matrices, whose `matmul` dimension asserts demand `a.len()` = n and
`b.len()` = m; `none` models that fatal dimension-assert failure. -/
def verifyList [DecidableEq GT] (e : G1 →ₗ[F] G2 →ₗ[F] GT) {m n : ℕ}
    (crs : Crs F G1 G2) (a : List G1) (b : List F) (target : G1)
    (pf : GSProof G1 G2 m n) : Option Bool :=
  (reshapeCol a n).bind fun am =>
  (reshapeCol b m).bind fun bm =>
  some (verify e crs am bm target pf)

/-- src/nizk.rs `Proof::randomize` on vectors: reshapes `a` to `(n, 1)` and
`b` to `(m, 1)` for the proof dimensions `m = c.dim().0`, `n = d.dim().0`
(`none` models the `unwrap` panic), with the rng draws passed as streams. -/
def randomizeList {m n : ℕ} (crs : Crs F G1 G2) (pf : GSProof G1 G2 m n)
    (a : List G1) (b : List F) (rr ss tt : ℕ → ℕ → F) :
    Option (GSProof G1 G2 m n) :=
  (reshapeCol a n).bind fun am =>
  (reshapeCol b m).bind fun bm =>
  some (randomize crs am bm pf (Matrix.of fun i j => rr i j)
    (Matrix.of fun i j => ss i j) (Matrix.of fun i j => tt i j))

/-- The relation `sum_j y_j A_j + sum_i b_i x_i = target` stated on the
vectors as given to `prove`. -/
def satisfiesL (a : List G1) (y : List F) (x : List G1) (b : List F)
    (target : G1) : Prop :=
  (List.zipWith (fun c g => c • g) y a).sum
    + (List.zipWith (fun c g => c • g) b x).sum = target

end GS

/-!
Byte encodings.  `serialize_compressed` of the backend is abstracted as
encoder functions `serF` (scalars) and `serP` (points) into byte lists.
The serde impls build a payload byte vector and hand it to
`serializer.serialize_bytes`; the payload is what is modelled here.  Nested
keys are embedded via `bincode::serialize`, whose `serialize_bytes` framing
(bincode 1.x default configuration) writes the length as a fixed 8-byte
little-endian u64 followed by the payload.
-/

/-- The 8-byte little-endian u64 encoding of a length, as written by the
bincode 1.x default configuration for `serialize_bytes`. -/
def u64le (n : ℕ) : List ℕ :=
  [n % 256, n / 256 % 256, n / 256 ^ 2 % 256, n / 256 ^ 3 % 256,
    n / 256 ^ 4 % 256, n / 256 ^ 5 % 256, n / 256 ^ 6 % 256, n / 256 ^ 7 % 256]

/-- Models `bincode::serialize` of a value whose serde `Serialize` impl emits one
`serialize_bytes(payload)` call: length-prefixed payload. -/
def bincodeBytes (payload : List ℕ) : List ℕ :=
  u64le payload.length ++ payload

/-- src/encrypt.rs `impl Serialize for EncryptKey`: the payload is
`compressed(generator) ++ compressed(y)`. -/
def Curve.encryptKeyBytes {Q : Type} (serP : Q → List ℕ)
    (k : Curve.EncryptKey Q) : List ℕ :=
  serP k.generator ++ serP k.y

/-- src/algorithm.rs `impl Serialize for EncryptKey`: the payload is
`compressed(generator) ++ compressed(y)`. -/
def Algo.encryptKeyBytes {F P : Type} (serP : P → List ℕ)
    (k : Algo.EncryptKey F P) : List ℕ :=
  serP k.generator ++ serP k.y

/-- src/decrypt.rs `impl Serialize for DecryptKey`: the payload is
`compressed(secret)` followed by the bincode encoding of the encrypt key. -/
def Curve.decryptKeyBytes {F Q : Type} (serF : F → List ℕ) (serP : Q → List ℕ)
    (k : Curve.DecryptKey F Q) : List ℕ :=
  serF k.secret ++ bincodeBytes (Curve.encryptKeyBytes serP k.encrypt_key)

/-- src/algorithm.rs `impl Serialize for DecryptKey`: the payload is
`compressed(generator) ++ compressed(secret)` followed by the bincode
encoding of the encrypt key. -/
def Algo.decryptKeyBytes {F P : Type} (serF : F → List ℕ) (serP : P → List ℕ)
    (k : Algo.DecryptKey F P) : List ℕ :=
  serP k.generator ++ serF k.secret
    ++ bincodeBytes (Algo.encryptKeyBytes serP k.encrypt_key)

/-- The DecryptKey encoding as the spec describes it, for comparison:
"DecryptKey = compressed(secret) ++ encode(EncryptKey)" with
"EncryptKey = compressed(generator) ++ compressed(y)" and no other fields. -/
def decryptKeyBytesSpec {F Q : Type} (serF : F → List ℕ) (serP : Q → List ℕ)
    (secret : F) (generator y : Q) : List ℕ :=
  serF secret ++ (serP generator ++ serP y)

/-! Concrete instantiation used to evaluate the NIZK on explicit inputs:
all four carriers are `ZMod 5` and the pairing is field multiplication,
which is a bilinear map of `ZMod 5`-modules. -/

/-- Multiplication on `ZMod 5` as a bilinear pairing. -/
def mulPairing : ZMod 5 →ₗ[ZMod 5] ZMod 5 →ₗ[ZMod 5] ZMod 5 :=
  LinearMap.mul (ZMod 5) (ZMod 5)

/-- A concrete CRS over `ZMod 5`, built as `Crs::rand` builds it from the
sampled generators and trapdoor scalars. -/
def wCrs : GS.Crs (ZMod 5) (ZMod 5) (ZMod 5) :=
  GS.Crs.build 1 1 2 3 1 2

/-- A concrete randomness stream. -/
def wR : ℕ → ℕ → ZMod 5 := fun _ _ => 1

/-- A concrete randomness stream. -/
def wS : ℕ → ℕ → ZMod 5 := fun _ _ => 2

/-- A concrete randomness stream. -/
def wT : ℕ → ℕ → ZMod 5 := fun _ _ => 3

/-- The proof produced by `prove` on a concrete satisfiable statement over
`ZMod 5`: A = [2], Y = [3], X = [1], b = [1], target = 3*2 + 1*1 = 2. -/
def wPf : GS.GSProof (ZMod 5) (ZMod 5) 1 1 :=
  (GS.proveList wCrs [2] [3] [1] [1] wR wS wT).get rfl

/-- The rerandomization of `wPf` under fresh concrete randomness. -/
def wPfR : GS.GSProof (ZMod 5) (ZMod 5) 1 1 :=
  (GS.randomizeList wCrs wPf [2] [1] wT wS wR).get rfl

end BlsElgamal

namespace BlsElgamal

section NIZKLemmas

open GS Matrix

variable {F G1 G2 GT : Type} [CommRing F] [AddCommGroup G1] [Module F G1]
  [AddCommGroup G2] [Module F G2] [AddCommGroup GT] [Module F GT]
  (e : G1 →ₗ[F] G2 →ₗ[F] GT)

lemma e_add_left (x x' : G1) (y : G2) : e (x + x') y = e x y + e x' y := by
  rw [map_add, LinearMap.add_apply]

lemma e_smul_left (c : F) (x : G1) (y : G2) : e (c • x) y = c • e x y := by
  rw [e.map_smul, LinearMap.smul_apply]

lemma e_zero_left (y : G2) : e (0 : G1) y = 0 := by
  rw [map_zero, LinearMap.zero_apply]

lemma e_sum_left {ι : Type} (s : Finset ι) (f : ι → G1) (y : G2) :
    e (∑ i ∈ s, f i) y = ∑ i ∈ s, e (f i) y := by
  rw [map_sum, LinearMap.sum_apply]

lemma e_add_right (x : G1) (y y' : G2) : e x (y + y') = e x y + e x y' :=
  map_add (e x) y y'

lemma e_sub_right (x : G1) (y y' : G2) : e x (y - y') = e x y - e x y' :=
  map_sub (e x) y y'

lemma e_smul_right (c : F) (x : G1) (y : G2) : e x (c • y) = c • e x y :=
  (e x).map_smul c y

lemma e_zero_right (x : G1) : e x (0 : G2) = 0 :=
  map_zero (e x)

lemma e_sum_right {ι : Type} (s : Finset ι) (x : G1) (g : ι → G2) :
    e x (∑ i ∈ s, g i) = ∑ i ∈ s, e x (g i) :=
  map_sum (e x) g s

lemma pairMatmul_add_left {m k n : ℕ} (a a' : Matrix (Fin m) (Fin k) G1)
    (b : Matrix (Fin k) (Fin n) G2) :
    pairMatmul e (a + a') b = pairMatmul e a b + pairMatmul e a' b := by
  ext i j
  simp [pairMatmul, Matrix.add_apply, e_add_left, Finset.sum_add_distrib]

lemma pairMatmul_add_right {m k n : ℕ} (a : Matrix (Fin m) (Fin k) G1)
    (b b' : Matrix (Fin k) (Fin n) G2) :
    pairMatmul e a (b + b') = pairMatmul e a b + pairMatmul e a b' := by
  ext i j
  simp [pairMatmul, Matrix.add_apply, e_add_right, Finset.sum_add_distrib]

lemma pairMatmul_sub_right {m k n : ℕ} (a : Matrix (Fin m) (Fin k) G1)
    (b b' : Matrix (Fin k) (Fin n) G2) :
    pairMatmul e a (b - b') = pairMatmul e a b - pairMatmul e a b' := by
  ext i j
  simp [pairMatmul, Matrix.sub_apply, e_sub_right, Finset.sum_sub_distrib]

/-- Moving a scalar-matrix factor across the pairing, left to right:
`(R U)^T ⋈ W = U^T ⋈ (R^T W)` where `⋈` is the pairing product. -/
lemma pairMatmul_shift {m p q s : ℕ} (r : Matrix (Fin m) (Fin p) F)
    (u : Matrix (Fin p) (Fin q) G1) (w : Matrix (Fin m) (Fin s) G2) :
    pairMatmul e (scalarMatmul r u)ᵀ w = pairMatmul e uᵀ (scalarMatmul rᵀ w) := by
  ext i j
  simp only [pairMatmul, scalarMatmul, Matrix.of_apply, Matrix.transpose_apply,
    e_sum_left, e_smul_left, e_sum_right, e_smul_right]
  exact Finset.sum_comm

/-- Moving a scalar-matrix factor across the pairing, right to left:
`A^T ⋈ (S V) = (S^T A)^T ⋈ V`. -/
lemma pairMatmul_transfer {n p q w : ℕ} (a : Matrix (Fin n) (Fin p) G1)
    (s : Matrix (Fin n) (Fin q) F) (v : Matrix (Fin q) (Fin w) G2) :
    pairMatmul e aᵀ (scalarMatmul s v) = pairMatmul e (scalarMatmul sᵀ a)ᵀ v := by
  ext i j
  simp only [pairMatmul, scalarMatmul, Matrix.of_apply, Matrix.transpose_apply,
    e_sum_left, e_smul_left, e_sum_right, e_smul_right]
  exact Finset.sum_comm

/-- The map `f(x, y)` is the pairing product of the transposed row with the row. -/
lemma fPair_eq (x : Matrix (Fin 1) (Fin 2) G1) (y : Matrix (Fin 1) (Fin 2) G2) :
    fPair e x y = pairMatmul e xᵀ y := by
  ext i j
  simp [fPair, pairMatmul]

/-- The satisfied relation, lifted through `l1`/`lz2`: the bilinear image of
the witnesses reassembles the lifted target. -/
lemma lT_eq {m n : ℕ} (crs : Crs F G1 G2) (a : Matrix (Fin n) (Fin 1) G1)
    (y : Matrix (Fin n) (Fin 1) F) (x : Matrix (Fin m) (Fin 1) G1)
    (b : Matrix (Fin m) (Fin 1) F) (target : G1)
    (hsat : satisfies a y x b target) :
    pairMatmul e (l1 a)ᵀ (lz2 crs y) + pairMatmul e (l1 x)ᵀ (lz2 crs b) =
      lT e crs target := by
  ext i j
  fin_cases i
  · simp [pairMatmul, lT, fPair, l1, lz2, e_zero_left]
  · simp only [pairMatmul, lT, fPair, l1, lz2, Matrix.of_apply,
      Matrix.transpose_apply, Matrix.add_apply, Matrix.cons_val_one,
      Matrix.cons_val_zero, Matrix.head_cons, Matrix.cons_val', Matrix.empty_val',
      Matrix.cons_val_fin_one, one_smul]
    rw [← hsat]
    simp only [e_add_left, e_sum_left, e_smul_left, e_smul_right]
    norm_num

/-- Completeness of the GS verification equation, for any CRS: with
satisfying witnesses, `verify` accepts the output of `prove` for every
choice of the prover randomness. -/
lemma verify_prove_eq_true [DecidableEq GT] {m n : ℕ} (crs : Crs F G1 G2)
    (a : Matrix (Fin n) (Fin 1) G1) (y : Matrix (Fin n) (Fin 1) F)
    (x : Matrix (Fin m) (Fin 1) G1) (b : Matrix (Fin m) (Fin 1) F)
    (target : G1) (r : Matrix (Fin m) (Fin 2) F) (s : Matrix (Fin n) (Fin 1) F)
    (t : Matrix (Fin 1) (Fin 2) F) (hsat : satisfies a y x b target) :
    verify e crs a b target (prove crs a y x b r s t) = true := by
  unfold verify
  rw [decide_eq_true_eq]
  show pairMatmul e (l1 a)ᵀ (lz2 crs y + scalarMatmul s crs.v1)
      + pairMatmul e (l1 x + scalarMatmul r crs.u)ᵀ (lz2 crs b) =
    lT e crs target
      + pairMatmul e crs.uᵀ
        (scalarMatmul rᵀ (lz2 crs b) - scalarMatmul tᵀ crs.v1)
      + fPair e (scalarMatmul sᵀ (l1 a) + scalarMatmul t crs.u) crs.v1
  have h1 : pairMatmul e (l1 a)ᵀ (scalarMatmul s crs.v1) =
      pairMatmul e (scalarMatmul sᵀ (l1 a))ᵀ crs.v1 :=
    pairMatmul_transfer e (l1 a) s crs.v1
  have h2 : pairMatmul e (scalarMatmul r crs.u)ᵀ (lz2 crs b) =
      pairMatmul e crs.uᵀ (scalarMatmul rᵀ (lz2 crs b)) :=
    pairMatmul_shift e r crs.u (lz2 crs b)
  have h3 : pairMatmul e (scalarMatmul t crs.u)ᵀ crs.v1 =
      pairMatmul e crs.uᵀ (scalarMatmul tᵀ crs.v1) :=
    pairMatmul_shift e t crs.u crs.v1
  rw [pairMatmul_add_right e (l1 a)ᵀ (lz2 crs y) (scalarMatmul s crs.v1),
    Matrix.transpose_add (l1 x) (scalarMatmul r crs.u),
    pairMatmul_add_left e (l1 x)ᵀ (scalarMatmul r crs.u)ᵀ (lz2 crs b),
    h1, h2,
    pairMatmul_sub_right e crs.uᵀ (scalarMatmul rᵀ (lz2 crs b))
      (scalarMatmul tᵀ crs.v1),
    fPair_eq e (scalarMatmul sᵀ (l1 a) + scalarMatmul t crs.u) crs.v1,
    Matrix.transpose_add (scalarMatmul sᵀ (l1 a)) (scalarMatmul t crs.u),
    pairMatmul_add_left e (scalarMatmul sᵀ (l1 a))ᵀ (scalarMatmul t crs.u)ᵀ
      crs.v1,
    h3, ← lT_eq e crs a y x b target hsat]
  abel

/-- The verification equation is preserved by `randomize`, for any CRS and
any fresh randomness: the commitment and proof-term shifts contribute the
same difference to both sides. -/
lemma verify_randomize_eq_true [DecidableEq GT] {m n : ℕ} (crs : Crs F G1 G2)
    (a : Matrix (Fin n) (Fin 1) G1) (b : Matrix (Fin m) (Fin 1) F)
    (target : G1) (pf : GSProof G1 G2 m n) (r : Matrix (Fin m) (Fin 2) F)
    (s : Matrix (Fin n) (Fin 1) F) (t : Matrix (Fin 1) (Fin 2) F)
    (h : verify e crs a b target pf = true) :
    verify e crs a b target (randomize crs a b pf r s t) = true := by
  unfold verify at h ⊢
  rw [decide_eq_true_eq] at h ⊢
  show pairMatmul e (l1 a)ᵀ (pf.d + scalarMatmul s crs.v1)
      + pairMatmul e (pf.c + scalarMatmul r crs.u)ᵀ (lz2 crs b) =
      lT e crs target
      + pairMatmul e crs.uᵀ
        (pf.pi + scalarMatmul rᵀ (lz2 crs b) - scalarMatmul tᵀ crs.v1)
      + fPair e (pf.theta + scalarMatmul sᵀ (l1 a) + scalarMatmul t crs.u) crs.v1
  have h1 : pairMatmul e (l1 a)ᵀ (scalarMatmul s crs.v1) =
      pairMatmul e (scalarMatmul sᵀ (l1 a))ᵀ crs.v1 :=
    pairMatmul_transfer e (l1 a) s crs.v1
  have h2 : pairMatmul e (scalarMatmul r crs.u)ᵀ (lz2 crs b) =
      pairMatmul e crs.uᵀ (scalarMatmul rᵀ (lz2 crs b)) :=
    pairMatmul_shift e r crs.u (lz2 crs b)
  have h3 : pairMatmul e (scalarMatmul t crs.u)ᵀ crs.v1 =
      pairMatmul e crs.uᵀ (scalarMatmul tᵀ crs.v1) :=
    pairMatmul_shift e t crs.u crs.v1
  rw [pairMatmul_add_right e (l1 a)ᵀ pf.d (scalarMatmul s crs.v1),
    Matrix.transpose_add pf.c (scalarMatmul r crs.u),
    pairMatmul_add_left e pf.cᵀ (scalarMatmul r crs.u)ᵀ (lz2 crs b),
    h1, h2,
    pairMatmul_sub_right e crs.uᵀ (pf.pi + scalarMatmul rᵀ (lz2 crs b))
      (scalarMatmul tᵀ crs.v1),
    pairMatmul_add_right e crs.uᵀ pf.pi (scalarMatmul rᵀ (lz2 crs b)),
    fPair_eq e (pf.theta + scalarMatmul sᵀ (l1 a) + scalarMatmul t crs.u)
      crs.v1,
    Matrix.transpose_add (pf.theta + scalarMatmul sᵀ (l1 a))
      (scalarMatmul t crs.u),
    Matrix.transpose_add pf.theta (scalarMatmul sᵀ (l1 a)),
    pairMatmul_add_left e (pf.thetaᵀ + (scalarMatmul sᵀ (l1 a))ᵀ)
      (scalarMatmul t crs.u)ᵀ crs.v1,
    pairMatmul_add_left e pf.thetaᵀ (scalarMatmul sᵀ (l1 a))ᵀ crs.v1,
    h3]
  rw [fPair_eq e pf.theta crs.v1] at h
  rw [← sub_eq_zero] at h ⊢
  rw [← h]
  abel

end NIZKLemmas

section ElGamal

variable {F P Q : Type} [CommRing F] [AddCommGroup P] [Module F P]
  [AddCommGroup Q] [Module F Q]

/-- C1: for every generator, secret scalar x, message m and randomness r,
decrypting with the key pair `DecryptKey::new(generator, x)` recovers the
message, in both the generic variant (src/algorithm.rs) and the CurveGroup
variant (src/encrypt.rs + src/decrypt.rs, with affine messages). -/
theorem c1_decrypt_encrypt_round_trip (φ : P ≃ₗ[F] Q) (g m : P) (gq mq : Q)
    (x r : F) :
    (Algo.DecryptKey.new g x).decrypt
        ((Algo.DecryptKey.new g x).encrypt_key.encrypt m r) = m ∧
    (Curve.DecryptKey.new φ gq x).decrypt φ
        ((Curve.DecryptKey.new φ gq x).encrypt_key.encrypt φ mq r) = mq := by
  constructor
  · show r • (x • g) + m - x • (r • g) = m
    rw [smul_smul, smul_smul, mul_comm r x]
    abel
  · show φ (r • φ.symm (φ (x • φ.symm gq)) + φ.symm mq
        + (-x) • (r • φ.symm gq)) = mq
    rw [LinearEquiv.symm_apply_apply, smul_smul, smul_smul, mul_comm r x,
      neg_mul, neg_smul (x * r) (φ.symm gq)]
    rw [show (x * r) • φ.symm gq + φ.symm mq + -((x * r) • φ.symm gq) =
      φ.symm mq by abel]
    exact φ.apply_symm_apply mq

/-- C4: for every key pair, decrypting the componentwise homomorphic sum of
two ciphertexts produced under its encrypt key yields the group sum of the
two plaintexts (src/ciphertext.rs `Add`, src/algorithm.rs `decrypt`). -/
theorem c4_homomorphic_add (k : Algo.DecryptKey F P) (m1 m2 : P) (r1 r2 : F) :
    k.decrypt (k.encrypt_key.encrypt m1 r1 + k.encrypt_key.encrypt m2 r2) =
      k.decrypt (k.encrypt_key.encrypt m1 r1)
        + k.decrypt (k.encrypt_key.encrypt m2 r2) := by
  show r1 • k.encrypt_key.y + m1 + (r2 • k.encrypt_key.y + m2)
      - k.secret • (r1 • k.encrypt_key.generator + r2 • k.encrypt_key.generator)
    = (r1 • k.encrypt_key.y + m1 - k.secret • (r1 • k.encrypt_key.generator))
      + (r2 • k.encrypt_key.y + m2 - k.secret • (r2 • k.encrypt_key.generator))
  rw [smul_add]
  abel

/-- C5: for every key pair built by `DecryptKey::new`, rerandomization does
not change the decrypted plaintext, and `rerandomize` computes
`(ct.A + generator * r, ct.B + y * r)` from the public key alone
(src/encrypt.rs `rerandomize`, src/decrypt.rs `decrypt`). -/
theorem c5_rerandomize_invariant (φ : P ≃ₗ[F] Q) (gq : Q) (x : F)
    (ct : Ciphertext P) (r' : F) :
    (Curve.DecryptKey.new φ gq x).decrypt φ
        ((Curve.DecryptKey.new φ gq x).encrypt_key.rerandomize φ ct r') =
      (Curve.DecryptKey.new φ gq x).decrypt φ ct ∧
    ∀ (k : Curve.EncryptKey Q) (ct2 : Ciphertext P) (r2 : F),
      k.rerandomize φ ct2 r2 =
        ⟨ct2.a + r2 • φ.symm k.generator, ct2.b + r2 • φ.symm k.y⟩ := by
  refine ⟨?_, fun k ct2 r2 => rfl⟩
  show φ (ct.b + r' • φ.symm (φ (x • φ.symm gq))
      + (-x) • (ct.a + r' • φ.symm gq)) = φ (ct.b + (-x) • ct.a)
  rw [LinearEquiv.symm_apply_apply, smul_add, smul_smul, smul_smul,
    mul_comm r' x, neg_mul, neg_smul (x * r') (φ.symm gq)]
  congr 1
  abel

/-- C7: decryption is a total function on arbitrary ciphertexts — under any
key, matching or not, it returns exactly `B - secret * A` (converted to
affine in the CurveGroup variant) and signals nothing
(src/algorithm.rs and src/decrypt.rs `decrypt`). -/
theorem c7_decrypt_total (φ : P ≃ₗ[F] Q) :
    (∀ (k : Algo.DecryptKey F P) (ct : Ciphertext P),
      k.decrypt ct = ct.b - k.secret • ct.a) ∧
    (∀ (k : Curve.DecryptKey F Q) (ct : Ciphertext P),
      k.decrypt φ ct = φ (ct.b - k.secret • ct.a)) := by
  refine ⟨fun k ct => rfl, fun k ct => ?_⟩
  show φ (ct.b + (-k.secret) • ct.a) = φ (ct.b - k.secret • ct.a)
  rw [neg_smul, sub_eq_add_neg]

/-- C9: the generic ElGamal variant (src/algorithm.rs) and the CurveGroup
variant (src/encrypt.rs + src/decrypt.rs) agree, up to the
projective/affine conversion `φ` at the boundary: keys derived from the
same generator and secret produce the same ciphertext, and decrypt any
ciphertext to the same group element. -/
theorem c9_variants_agree (φ : P ≃ₗ[F] Q) (g m : P) (x r : F)
    (ct : Ciphertext P) :
    (Curve.DecryptKey.new φ (φ g) x).encrypt_key.encrypt φ (φ m) r =
      (Algo.DecryptKey.new g x).encrypt_key.encrypt m r ∧
    (Curve.DecryptKey.new φ (φ g) x).decrypt φ ct =
      φ ((Algo.DecryptKey.new g x).decrypt ct) := by
  constructor
  · show (⟨r • φ.symm (φ g), r • φ.symm (φ (x • φ.symm (φ g))) + φ.symm (φ m)⟩
        : Ciphertext P) = ⟨r • g, r • (x • g) + m⟩
    rw [LinearEquiv.symm_apply_apply, LinearEquiv.symm_apply_apply,
      LinearEquiv.symm_apply_apply]
  · show φ (ct.b + (-x) • ct.a) = φ (ct.b - x • ct.a)
    rw [neg_smul, sub_eq_add_neg]

/-- C10: rerandomization composes with encryption as addition of the
randomness, and rerandomizing with 0 is the identity on encrypted
ciphertexts (src/encrypt.rs `encrypt` and `rerandomize`). -/
theorem c10_rerandomize_compose (φ : P ≃ₗ[F] Q) (k : Curve.EncryptKey Q)
    (m : Q) (r1 r2 : F) :
    k.rerandomize φ (k.encrypt φ m r1) r2 = k.encrypt φ m (r1 + r2) ∧
    k.rerandomize φ (k.encrypt φ m r1) 0 = k.encrypt φ m r1 := by
  constructor
  · show (⟨r1 • φ.symm k.generator + r2 • φ.symm k.generator,
        r1 • φ.symm k.y + φ.symm m + r2 • φ.symm k.y⟩ : Ciphertext P) =
      ⟨(r1 + r2) • φ.symm k.generator, (r1 + r2) • φ.symm k.y + φ.symm m⟩
    rw [add_smul, add_smul]
    congr 1
    abel
  · show (⟨r1 • φ.symm k.generator + (0 : F) • φ.symm k.generator,
        r1 • φ.symm k.y + φ.symm m + (0 : F) • φ.symm k.y⟩ : Ciphertext P) =
      ⟨r1 • φ.symm k.generator, r1 • φ.symm k.y + φ.symm m⟩
    rw [zero_smul, zero_smul, add_zero, add_zero]

end ElGamal

section NIZKList

open GS Matrix

variable {F G1 G2 GT : Type} [CommRing F] [AddCommGroup G1] [Module F G1]
  [AddCommGroup G2] [Module F G2] [AddCommGroup GT] [Module F GT]

lemma reshapeCol_length {α : Type} {l : List α} {n : ℕ}
    {M : Matrix (Fin n) (Fin 1) α} (h : reshapeCol l n = some M) :
    l.length = n := by
  unfold reshapeCol at h
  split at h
  · assumption
  · cases h

lemma reshapeCol_isSome {α : Type} (l : List α) (n : ℕ) :
    (reshapeCol l n).isSome = true ↔ l.length = n := by
  unfold reshapeCol
  split
  next h => simp [h]
  next h => simp [h]

lemma reshapeCol_getD {α : Type} {l : List α} {n : ℕ}
    {M : Matrix (Fin n) (Fin 1) α} (h : reshapeCol l n = some M)
    (i : Fin n) (z : α) : M i 0 = l.getD i z := by
  unfold reshapeCol at h
  split at h
  next hl =>
    cases h
    have hi : (i : ℕ) < l.length := by rw [hl]; exact i.isLt
    rw [List.getD_eq_get l z hi]
    rfl
  next => cases h

lemma zipWith_smul_sum {G : Type} [AddCommGroup G] [Module F G] :
    ∀ (lc : List F) (lg : List G), lc.length = lg.length →
      (List.zipWith (fun c g => c • g) lc lg).sum =
        ∑ i ∈ Finset.range lc.length, lc.getD i 0 • lg.getD i 0
  | [], [], _ => by simp
  | [], _ :: _, h => by simp at h
  | _ :: _, [], h => by simp at h
  | c :: cs, g :: gs, h => by
    have ih := zipWith_smul_sum cs gs (by simpa using h)
    simp only [List.zipWith, List.sum_cons, List.length_cons,
      Finset.sum_range_succ', List.getD_cons_succ, List.getD_cons_zero, ih]
    exact add_comm _ _

/-- The list-level relation transfers to the reshaped matrices. -/
lemma satisfiesL_to_satisfies (a : List G1) (y : List F) (x : List G1)
    (b : List F) (target : G1) {am : Matrix (Fin y.length) (Fin 1) G1}
    {ym : Matrix (Fin y.length) (Fin 1) F}
    {xm : Matrix (Fin x.length) (Fin 1) G1}
    {bm : Matrix (Fin x.length) (Fin 1) F}
    (ha : reshapeCol a y.length = some am)
    (hy : reshapeCol y y.length = some ym)
    (hx : reshapeCol x x.length = some xm)
    (hb : reshapeCol b x.length = some bm)
    (hsat : satisfiesL a y x b target) : satisfies am ym xm bm target := by
  unfold satisfies
  unfold satisfiesL at hsat
  have hal : a.length = y.length := reshapeCol_length ha
  have hbl : b.length = x.length := reshapeCol_length hb
  rw [zipWith_smul_sum y a hal.symm, zipWith_smul_sum b x hbl] at hsat
  rw [hbl] at hsat
  rw [← hsat]
  congr 1
  · calc ∑ j : Fin y.length, ym j 0 • am j 0
        = ∑ j : Fin y.length, y.getD (↑j) 0 • a.getD (↑j) 0 :=
          Finset.sum_congr rfl fun j _ => by
            rw [reshapeCol_getD hy j 0, reshapeCol_getD ha j 0]
      _ = ∑ i ∈ Finset.range y.length, y.getD i 0 • a.getD i 0 :=
          Fin.sum_univ_eq_sum_range (fun i => y.getD i 0 • a.getD i 0) y.length
  · calc ∑ i : Fin x.length, bm i 0 • xm i 0
        = ∑ i : Fin x.length, b.getD (↑i) 0 • x.getD (↑i) 0 :=
          Finset.sum_congr rfl fun i _ => by
            rw [reshapeCol_getD hb i 0, reshapeCol_getD hx i 0]
      _ = ∑ i ∈ Finset.range x.length, b.getD i 0 • x.getD i 0 :=
          Fin.sum_univ_eq_sum_range (fun i => b.getD i 0 • x.getD i 0) x.length

/-- C3 (amended): `prove` completes exactly when `len(X) == len(A)`,
`len(Y) == len(b)` and additionally `len(X) == len(Y)`; with the two
claimed equalities alone, the reshape of `A` to an `(n, 1)` array aborts
whenever `len(X) != len(Y)` (src/nizk.rs `prove`). -/
theorem c3_prove_completes_iff (crs : Crs F G1 G2) (a x : List G1)
    (y b : List F) (rr ss tt : ℕ → ℕ → F) :
    (proveList crs a y x b rr ss tt).isSome = true ↔
      (x.length = a.length ∧ y.length = b.length ∧ x.length = y.length) := by
  unfold proveList
  by_cases hxa : x.length = a.length
  case neg => rw [if_neg hxa]; simp [hxa]
  rw [if_pos hxa]
  by_cases hyb : y.length = b.length
  case neg => rw [if_neg hyb]; simp [hxa, hyb]
  rw [if_pos hyb]
  constructor
  · intro h
    refine ⟨hxa, hyb, ?_⟩
    cases hra : reshapeCol a y.length with
    | none => rw [hra] at h; simp at h
    | some am => exact hxa.trans (reshapeCol_length hra)
  · rintro ⟨-, -, hxy⟩
    have ha : a.length = y.length := by rw [← hxa]; exact hxy
    have hb : b.length = x.length := by rw [← hyb]; exact hxy.symm
    cases hra : reshapeCol a y.length with
    | none =>
      rw [← reshapeCol_isSome a y.length, hra] at ha
      cases ha
    | some am =>
      cases hrb : reshapeCol b x.length with
      | none =>
        rw [← reshapeCol_isSome b x.length, hrb] at hb
        cases hb
      | some bm =>
        cases hry : reshapeCol y y.length with
        | none =>
          have : y.length = y.length := rfl
          rw [← reshapeCol_isSome y y.length, hry] at this
          cases this
        | some ym =>
          cases hrx : reshapeCol x x.length with
          | none =>
            have : x.length = x.length := rfl
            rw [← reshapeCol_isSome x x.length, hrx] at this
            cases this
          | some xm => rfl

/-- Completeness for any CRS, at the level of the vector interface: when
`prove` completes and the witnesses satisfy the relation, `verify`
accepts. -/
lemma proveList_verifyList [DecidableEq GT] (e : G1 →ₗ[F] G2 →ₗ[F] GT)
    (crs : Crs F G1 G2) (a x : List G1) (y b : List F) (rr ss tt : ℕ → ℕ → F)
    (target : G1) (pf : GSProof G1 G2 x.length y.length)
    (h1 : proveList crs a y x b rr ss tt = some pf)
    (h2 : satisfiesL a y x b target) :
    verifyList e crs a b target pf = some true := by
  unfold proveList at h1
  by_cases hxa : x.length = a.length
  swap
  · rw [if_neg hxa] at h1; cases h1
  rw [if_pos hxa] at h1
  by_cases hyb : y.length = b.length
  swap
  · rw [if_neg hyb] at h1; cases h1
  rw [if_pos hyb] at h1
  cases hra : reshapeCol a y.length with
  | none => rw [hra] at h1; cases h1
  | some am =>
  rw [hra] at h1
  cases hry : reshapeCol y y.length with
  | none => rw [hry] at h1; cases h1
  | some ym =>
  rw [hry] at h1
  cases hrx : reshapeCol x x.length with
  | none => rw [hrx] at h1; cases h1
  | some xm =>
  rw [hrx] at h1
  cases hrb : reshapeCol b x.length with
  | none => rw [hrb] at h1; cases h1
  | some bm =>
  rw [hrb] at h1
  simp only [Option.some_bind] at h1
  injection h1 with h1
  subst h1
  unfold verifyList
  rw [hra, hrb]
  simp only [Option.some_bind]
  rw [verify_prove_eq_true e crs am ym xm bm target _ _ _
    (satisfiesL_to_satisfies a y x b target hra hry hrx hrb h2)]

/-- C2: for every CRS produced by `Crs::rand` (built from its sampled
generators and trapdoor scalars), every public vectors A, b, witnesses Y, X
and prover randomness, if `prove` returns a proof and the witnesses satisfy
`sum_j y_j A_j + sum_i b_i x_i = target`, then `verify` returns true,
deterministically (src/nizk.rs `prove`, `verify`, `proof`). -/
theorem c2_nizk_completeness [DecidableEq GT] (e : G1 →ₗ[F] G2 →ₗ[F] GT)
    (p1 : G1) (p2 : G2) (a1 t1 a2 t2 : F) (a x : List G1) (y b : List F)
    (rr ss tt : ℕ → ℕ → F) (target : G1)
    (pf : GSProof G1 G2 x.length y.length)
    (h1 : proveList (Crs.build p1 p2 a1 t1 a2 t2) a y x b rr ss tt = some pf)
    (h2 : satisfiesL a y x b target) :
    verifyList e (Crs.build p1 p2 a1 t1 a2 t2) a b target pf = some true :=
  proveList_verifyList e (Crs.build p1 p2 a1 t1 a2 t2) a x y b rr ss tt
    target pf h1 h2

/-- C6: for every CRS, public A, b, target and proof accepted by `verify`,
every output of `Proof::randomize` (for any values of the fresh random
scalars) is also accepted by `verify`
(src/nizk.rs `Proof::randomize`, `randomize_proof`). -/
theorem c6_randomize_preserves_validity [DecidableEq GT]
    (e : G1 →ₗ[F] G2 →ₗ[F] GT) (crs : Crs F G1 G2) {m n : ℕ} (a : List G1)
    (b : List F) (target : G1) (pf pf' : GSProof G1 G2 m n)
    (rr ss tt : ℕ → ℕ → F)
    (h1 : verifyList e crs a b target pf = some true)
    (h2 : randomizeList crs pf a b rr ss tt = some pf') :
    verifyList e crs a b target pf' = some true := by
  unfold verifyList at h1 ⊢
  unfold randomizeList at h2
  cases hra : reshapeCol a n with
  | none => rw [hra] at h1; cases h1
  | some am =>
  rw [hra] at h1 h2
  cases hrb : reshapeCol b m with
  | none => rw [hrb] at h1; cases h1
  | some bm =>
  rw [hrb] at h1 h2
  simp only [Option.some_bind] at h1 h2 ⊢
  injection h2 with h2
  subst h2
  injection h1 with h1
  rw [verify_randomize_eq_true e crs am bm target pf _ _ _ h1]

end NIZKList

/-- C3 counterexample: a call satisfying the claimed precondition —
`len(X) == len(A)` (both 1) and `len(Y) == len(b)` (both 2) — on which
`prove` nevertheless aborts: the reshape of A to a `(2, 1)` array panics,
so no proof is returned. -/
theorem c3_counterexample :
    (([1] : List (ZMod 5)).length = ([2] : List (ZMod 5)).length
      ∧ ([3, 3] : List (ZMod 5)).length = ([1, 1] : List (ZMod 5)).length)
    ∧ GS.proveList wCrs [2] [3, 3] [1] [1, 1] wR wS wT = none :=
  ⟨⟨rfl, rfl⟩, rfl⟩

/-- Witness for C2: on a concrete satisfiable statement over `ZMod 5`
(A = [2], Y = [3], X = [1], b = [1], target = 2) with the multiplication
pairing, `prove` completes and `verify` accepts its output. -/
theorem c2_nizk_completeness_witness :
    GS.verifyList mulPairing wCrs [2] [1] (2 : ZMod 5) wPf = some true := by
  have h1 : GS.proveList wCrs [2] [3] [1] [1] wR wS wT = some wPf := rfl
  exact c2_nizk_completeness mulPairing 1 1 2 3 1 2 [2] [1] [3] [1]
    wR wS wT 2 wPf h1 (by unfold GS.satisfiesL; decide)

/-- Witness for C6: the concrete valid proof `wPf` stays valid after
`randomize` with concrete fresh randomness. -/
theorem c6_randomize_preserves_validity_witness :
    GS.verifyList mulPairing wCrs [2] [1] (2 : ZMod 5) wPfR = some true := by
  have h2 : GS.randomizeList wCrs wPf [2] [1] wT wS wR = some wPfR := rfl
  have h1 : GS.verifyList mulPairing wCrs [2] [1] (2 : ZMod 5) wPf
      = some true := by decide
  exact c6_randomize_preserves_validity mulPairing wCrs [2] [1] 2 wPf wPfR
    wT wS wR h1 h2

/-- C8 (amended): the DecryptKey payload of the CurveGroup variant
(src/decrypt.rs) is `compressed(secret)` followed by the bincode encoding
of the EncryptKey, which carries an 8-byte little-endian length prefix
before `compressed(generator) ++ compressed(y)`; the generic variant
(src/algorithm.rs, the one exported through lib.rs) additionally prepends
`compressed(generator)` before the secret. -/
theorem c8_decrypt_key_encoding {F P Q : Type} (serF : F → List ℕ)
    (serP : P → List ℕ) (serQ : Q → List ℕ) :
    (∀ k : Curve.DecryptKey F Q,
      Curve.decryptKeyBytes serF serQ k =
        serF k.secret
          ++ u64le (serQ k.encrypt_key.generator ++ serQ k.encrypt_key.y).length
          ++ serQ k.encrypt_key.generator ++ serQ k.encrypt_key.y) ∧
    (∀ k : Algo.DecryptKey F P,
      Algo.decryptKeyBytes serF serP k =
        serP k.generator ++ serF k.secret
          ++ u64le (serP k.encrypt_key.generator ++ serP k.encrypt_key.y).length
          ++ serP k.encrypt_key.generator ++ serP k.encrypt_key.y) := by
  constructor
  · intro k
    simp [Curve.decryptKeyBytes, Curve.encryptKeyBytes, bincodeBytes,
      List.append_assoc]
  · intro k
    simp [Algo.decryptKeyBytes, Algo.encryptKeyBytes, bincodeBytes,
      List.append_assoc]

/-- C8 counterexample: with single-byte encoders over `ZMod 5` and the key
`DecryptKey::new(1, 2)` of the generic variant, the actual payload differs
from the claimed `compressed(secret) ++ compressed(generator) ++
compressed(y)`: it starts with the generator byte and contains bincode's
8-byte length prefix. -/
theorem c8_counterexample :
    Algo.decryptKeyBytes (fun v : ZMod 5 => [v.val]) (fun v : ZMod 5 => [v.val])
        (Algo.DecryptKey.new (1 : ZMod 5) (2 : ZMod 5)) ≠
      decryptKeyBytesSpec (fun v : ZMod 5 => [v.val]) (fun v : ZMod 5 => [v.val])
        (Algo.DecryptKey.new (1 : ZMod 5) (2 : ZMod 5)).secret
        (Algo.DecryptKey.new (1 : ZMod 5) (2 : ZMod 5)).encrypt_key.generator
        (Algo.DecryptKey.new (1 : ZMod 5) (2 : ZMod 5)).encrypt_key.y := by
  decide

end BlsElgamal
